import Mathlib

/-!
# Verification of `generator.py` (class-conditional region-redrawing GAN generator)

Shallow embedding of the generator network of this repository over exact
rational arithmetic.  Tensors are total functions from `Fin`-bounded indices
to `ℚ`; every Keras/TensorFlow primitive used by `generator.py`
(dense layers, 1×1 / 3×3 same-padding convolutions, bilinear 2× upsampling,
same-padding average pooling, softmax, layer normalization, ReLU, tanh) is
translated concretely.  Components of the repository that live outside
`src/generator.py` (`SpectralNormalization`, `SelfAttentionModule`,
`InformationConservationNetwork`) are modelled from the specification, as
marked in their doc comments.
-/

set_option maxHeartbeats 1000000

namespace Gen

/-- A `[B, H, W, C]` tensor of exact rationals (the idealization of the
float32 tensors of the code): a total function on bounded indices.  Shape
claims of the specification are carried by the type indices. -/
abbrev Tensor (B H W C : ℕ) : Type := Fin B → Fin H → Fin W → Fin C → ℚ

/-- Idealized model of the framework's exponential function used by
`Softmax`: a computable strictly positive function with `expQ 0 = 1`.
Only positivity and the value at `0` are ever used by the development,
matching what the softmax layer's documented behaviour depends on. -/
def expQ (x : ℚ) : ℚ := if 0 ≤ x then 1 + x else (1 - x)⁻¹

theorem expQ_pos (x : ℚ) : 0 < expQ x := by
  unfold expQ
  split
  · linarith
  · have h : (0:ℚ) < 1 - x := by linarith [not_le.mp (by assumption)]
    exact inv_pos.mpr h

theorem expQ_zero : expQ 0 = 1 := by norm_num [expQ]

/-- Idealized model of `tf.keras.activations.tanh`: a computable odd
sigmoid with range inside `[-1, 1]`.  Only the range bound is used. -/
def tanhQ (x : ℚ) : ℚ := x / (1 + |x|)

theorem abs_tanhQ_le_one (x : ℚ) : |tanhQ x| ≤ 1 := by
  have h1 : (0:ℚ) < 1 + |x| := by positivity
  rw [tanhQ, abs_div, abs_of_pos h1, div_le_one h1]
  linarith [abs_nonneg x]

/-- Idealized computable model of the framework's square root used inside
layer normalization (four Newton steps from `max 1 x`); no numerical
property of it is relied upon by any claim. -/
def sqrtQ (x : ℚ) : ℚ :=
  let step : ℚ → ℚ := fun g => if g = 0 then 0 else (g + x / g) / 2
  step (step (step (step (max 1 x))))

/-- Pointwise rectified-linear activation (`ReLU`). -/
def relu4 {B H W C : ℕ} (x : Tensor B H W C) : Tensor B H W C :=
  fun b i j c => max (x b i j c) 0

/-- `tf.concat` along `axis=3` of a feature tensor and a single-channel
mask tensor, as used in the up-sampling and output blocks: the mask
contributes exactly one extra channel. -/
def concatCh {B H W C : ℕ} (x : Tensor B H W C) (m : Tensor B H W 1) :
    Tensor B H W (C + 1) :=
  fun b i j c => if h : c.val < C then x b i j ⟨c.val, h⟩ else m b i j 0

/-- Zero-padded tensor lookup at possibly out-of-range integer spatial
coordinates ('same' padding of convolutions pads with zeros). -/
def padGet {B H W C : ℕ} (x : Tensor B H W C) (b : Fin B) (iz jz : ℤ)
    (c : Fin C) : ℚ :=
  if h : 0 ≤ iz ∧ iz < (H:ℤ) ∧ 0 ≤ jz ∧ jz < (W:ℤ) then
    x b ⟨iz.toNat, by omega⟩ ⟨jz.toNat, by omega⟩ c
  else 0

/-- `Conv2D` with odd kernel size `K`, stride 1 and `'same'` padding:
output `[b,i,j,co] = bias co + Σ_{u,v,ci} kernel[u,v,ci,co] ·
x[b, i+u-K/2, j+v-K/2, ci]` with zero padding outside the image. -/
def conv2d {B H W Cin Cout : ℕ} (K : ℕ)
    (kernel : Fin K → Fin K → Fin Cin → Fin Cout → ℚ)
    (bias : Fin Cout → ℚ) (x : Tensor B H W Cin) : Tensor B H W Cout :=
  fun b i j co =>
    bias co + ∑ u : Fin K, ∑ v : Fin K, ∑ ci : Fin Cin,
      kernel u v ci co *
        padGet x b ((i.val : ℤ) + u.val - (K / 2 : ℕ)) ((j.val : ℤ) + v.val - (K / 2 : ℕ)) ci

/-- A `1×1` convolution (the form used by the conditional-normalization
gamma/beta maps), written through `conv2d` with kernel size 1. -/
def conv1x1 {B H W Cin Cout : ℕ} (w : Fin Cin → Fin Cout → ℚ)
    (bias : Fin Cout → ℚ) (x : Tensor B H W Cin) : Tensor B H W Cout :=
  conv2d 1 (fun _ _ ci co => w ci co) bias x

/-- Clamp an integer coordinate into `[0, H)` (requires `0 < H`). -/
def clampIdx (H : ℕ) (hH : 0 < H) (z : ℤ) : Fin H :=
  ⟨(min (max z 0) ((H:ℤ) - 1)).toNat, by omega⟩

/-- `UpSampling2D(size=(2,2), interpolation='bilinear')`: 2× bilinear
resize with half-pixel centers (output pixel `I` samples the input at
source coordinate `(2I-1)/4`) and edge clamping. -/
def upsample2x {B H W C : ℕ} (x : Tensor B H W C) :
    Tensor B (2 * H) (2 * W) C :=
  fun b I J c =>
    have hH : 0 < H := by have := I.isLt; omega
    have hW : 0 < W := by have := J.isLt; omega
    let si : ℚ := (2 * (I.val : ℚ) - 1) / 4
    let sj : ℚ := (2 * (J.val : ℚ) - 1) / 4
    let i0 : ℤ := ⌊si⌋
    let j0 : ℤ := ⌊sj⌋
    let ti : ℚ := si - i0
    let tj : ℚ := sj - j0
    (1 - ti) * (1 - tj) * x b (clampIdx H hH i0) (clampIdx W hW j0) c +
    (1 - ti) * tj * x b (clampIdx H hH i0) (clampIdx W hW (j0 + 1)) c +
    ti * (1 - tj) * x b (clampIdx H hH (i0 + 1)) (clampIdx W hW j0) c +
    ti * tj * x b (clampIdx H hH (i0 + 1)) (clampIdx W hW (j0 + 1)) c

/-- `AveragePooling2D(pool_size=s, padding='same')` (stride defaults to the
pool size): entry `(i,j)` averages the window `[i·s, i·s+s) × [j·s, j·s+s)`
clipped to the input extent, dividing by the number of in-range elements
(TensorFlow excludes padding from the average).  The output spatial
dimensions — `⌈Hm/s⌉ × ⌈Wm/s⌉` for the layer — are passed in by the caller,
which in `generator.py` always matches the feature resolution the pooled
mask is concatenated to. -/
def maskPoolTo {B Hm Wm C : ℕ} (s : ℕ) (Hout Wout : ℕ)
    (x : Tensor B Hm Wm C) : Tensor B Hout Wout C :=
  fun b i j c =>
    let rows : Finset (Fin Hm) :=
      Finset.univ.filter (fun ii => i.val * s ≤ ii.val ∧ ii.val < i.val * s + s)
    let cols : Finset (Fin Wm) :=
      Finset.univ.filter (fun jj => j.val * s ≤ jj.val ∧ jj.val < j.val * s + s)
    (∑ ii ∈ rows, ∑ jj ∈ cols, x b ii jj c) / ((rows.card * cols.card : ℕ) : ℚ)

/-- `Softmax(axis=3)`: the normalized exponential over the class axis. -/
def softmax3 {B H W n : ℕ} (logits : Tensor B H W n) : Tensor B H W n :=
  fun b i j k => expQ (logits b i j k) / ∑ k' : Fin n, expQ (logits b i j k')

/-- Spatial mean of a feature map, per batch element and channel. -/
def spatialMean {B H W C : ℕ} (x : Tensor B H W C) (b : Fin B) (c : Fin C) : ℚ :=
  (∑ i : Fin H, ∑ j : Fin W, x b i j c) / ((H * W : ℕ) : ℚ)

/-- Spatial (biased) variance of a feature map, per batch element and channel. -/
def spatialVar {B H W C : ℕ} (x : Tensor B H W C) (b : Fin B) (c : Fin C) : ℚ :=
  (∑ i : Fin H, ∑ j : Fin W, (x b i j c - spatialMean x b c) ^ 2) / ((H * W : ℕ) : ℚ)

/-- `LayerNormalization(axis=(1,2), center=False, scale=False)` (Keras
default `epsilon = 1/1000`): for each batch element and channel, normalize
over the two spatial axes only; no learned affine parameters. -/
def layerNormSpatial {B H W C : ℕ} (x : Tensor B H W C) : Tensor B H W C :=
  fun b i j c =>
    (x b i j c - spatialMean x b c) / sqrtQ (spatialVar x b c + 1 / 1000)

/-- Modelled from the spec: `SpectralNormalization` (defined in
`network_components`, not under `src/`) rescales the wrapped convolution's
kernel by (an estimate of) its largest singular value before applying it.
The power-iteration state update performed once per forward call during
training is, per the spec, an external collaborator's responsibility, so
the pure forward map divides the kernel by the layer's current estimate
`sigmaEst` and does not read the training flag. -/
structure SNConv2D (K Cin Cout : ℕ) where
  kernel : Fin K → Fin K → Fin Cin → Fin Cout → ℚ
  bias : Fin Cout → ℚ
  sigmaEst : ℚ

/-- Forward pass of a spectrally-normalized convolution (see `SNConv2D`). -/
def SNConv2D.call {B H W : ℕ} {K Cin Cout : ℕ} (L : SNConv2D K Cin Cout)
    (x : Tensor B H W Cin) (_training : Bool) : Tensor B H W Cout :=
  conv2d K (fun u v ci co => L.kernel u v ci co / L.sigmaEst) L.bias x

/-- `ConditionalBatchNormalization.__init__`: an instance normalization
(`LayerNormalization(axis=(1,2), center=False, scale=False)`, no learned
affine) together with two plain `1×1` convolutions mapping the
conditioning vector to per-channel scale `gamma` and shift `beta`.
`Cz` is the channel count of the conditioning tensor (fixed when Keras
builds the layer on first call) and `C` the number of `filters`. -/
structure ConditionalBatchNormalization (Cz C : ℕ) where
  gammaKernel : Fin Cz → Fin C → ℚ
  gammaBias : Fin C → ℚ
  betaKernel : Fin Cz → Fin C → ℚ
  betaBias : Fin C → ℚ

/-- `ConditionalBatchNormalization.call`: normalize the input over its
spatial axes, compute `gamma_c = Conv1x1(z_k)` and `beta_c = Conv1x1(z_k)`
(shape `[B,1,1,C]`), and return `gamma_c * normalized(x) + beta_c` with
spatial broadcasting.  The Python `call(self, x, z_k)` declares no
`training` parameter, so the ambient Keras training flag — surfaced here
as an explicit final argument — cannot influence the computation. -/
def ConditionalBatchNormalization.call {B H W : ℕ} {Cz C : ℕ}
    (L : ConditionalBatchNormalization Cz C) (x : Tensor B H W C)
    (z_k : Tensor B 1 1 Cz) (_training : Bool) : Tensor B H W C :=
  fun b i j c =>
    conv1x1 L.gammaKernel L.gammaBias z_k b 0 0 c * layerNormSpatial x b i j c +
      conv1x1 L.betaKernel L.betaBias z_k b 0 0 c

/-- Packing of a `(i, j, c)` position of a `[·,4,4,C]` grid into the flat
feature axis of length `C·4·4`, row-major as `tf.reshape` flattens. -/
theorem pack_lt {C : ℕ} (i j : Fin 4) (c : Fin C) :
    i.val * (4 * C) + j.val * C + c.val < C * 4 * 4 := by
  have h1 : i.val * (4 * C) ≤ 3 * (4 * C) :=
    Nat.mul_le_mul_right _ (by omega)
  have h2 : j.val * C ≤ 3 * C := Nat.mul_le_mul_right _ (by omega)
  have h3 : c.val < C := c.isLt
  omega

/-- `tf.reshape(x, (-1, 4, 4, C))` on a `[B,1,1,M]` tensor, modelled
fallibly: the reshape succeeds exactly when the feature size `M` equals
`C·4·4` (so that the inferred `-1` dimension is the batch size `B`),
and fails with a shape error otherwise. -/
def reshapeTo4x4 {B M : ℕ} (x : Tensor B 1 1 M) (C : ℕ) :
    Option (Tensor B 4 4 C) :=
  if h : M = C * 4 * 4 then
    some (fun b i j c =>
      x b 0 0 ⟨i.val * (4 * C) + j.val * C + c.val, by rw [h]; exact pack_lt i j c⟩)
  else none

/-- `InputBlock.__init__`: a fully-connected (`Dense`) layer with
`output_channels * 4 * 4` units acting on the last axis of the noise
vector, followed by conditional batch normalization with
`output_channels` filters (`output_channels = base_channels *
output_factor`).  `Cz` is the noise dimensionality `n_input`. -/
structure InputBlock (Cz base outputFactor : ℕ) where
  denseKernel : Fin Cz → Fin (base * outputFactor * 4 * 4) → ℚ
  denseBias : Fin (base * outputFactor * 4 * 4) → ℚ
  cbn : ConditionalBatchNormalization Cz (base * outputFactor)

/-- The `Dense` layer of `InputBlock`: acts on the last axis of the
`[B,1,1,n_input]` noise vector. -/
def InputBlock.dense {B : ℕ} {Cz base outputFactor : ℕ}
    (L : InputBlock Cz base outputFactor) (z_k : Tensor B 1 1 Cz) :
    Tensor B 1 1 (base * outputFactor * 4 * 4) :=
  fun b _ _ u => L.denseBias u + ∑ ci : Fin Cz, L.denseKernel ci u * z_k b 0 0 ci

/-- `InputBlock.call` with the reshape modelled fallibly (`reshapeTo4x4`):
project with the dense layer, reshape to the `4×4` grid, apply CBN
conditioned on the same noise vector, apply ReLU.  The ambient training
flag is forwarded to the CBN layer (which ignores it). -/
def InputBlock.callChecked {B : ℕ} {Cz base outputFactor : ℕ}
    (L : InputBlock Cz base outputFactor) (z_k : Tensor B 1 1 Cz)
    (training : Bool) : Option (Tensor B 4 4 (base * outputFactor)) :=
  (reshapeTo4x4 (L.dense z_k) (base * outputFactor)).map
    (fun x => relu4 (L.cbn.call x z_k training))

/-- `InputBlock.call`, total form: the dense layer has
`output_channels * 4 * 4` units by construction, so the reshape's size
condition holds definitionally and the call never fails
(`InputBlock.callChecked` always returns `some` of this value). -/
def InputBlock.call {B : ℕ} {Cz base outputFactor : ℕ}
    (L : InputBlock Cz base outputFactor) (z_k : Tensor B 1 1 Cz)
    (training : Bool) : Tensor B 4 4 (base * outputFactor) :=
  relu4 (L.cbn.call
    (fun b i j c =>
      L.dense z_k b 0 0
        ⟨i.val * (4 * (base * outputFactor)) + j.val * (base * outputFactor) + c.val,
         pack_lt i j c⟩)
    z_k training)

/-- `ResidualUpsamplingBlock.__init__`: identity path (2× bilinear
upsampling shared with the main path, then a spectrally-normalized `1×1`
convolution to `output_channels`), a mask average-pooling of
`pool_size = maskScale`, and the main pipeline `cbn_1 → relu → conv_1
(3×3) → cbn_2 → relu → conv_2 (3×3)`; `conv_1` consumes the one extra
mask channel.  Channel counts: `input_channels = base * inputFactor`,
`output_channels = base * outputFactor`. -/
structure ResidualUpsamplingBlock (Cz base inputFactor outputFactor maskScale : ℕ) where
  process_identity : SNConv2D 1 (base * inputFactor) (base * outputFactor)
  cbn_1 : ConditionalBatchNormalization Cz (base * inputFactor)
  conv_1 : SNConv2D 3 (base * inputFactor + 1) (base * outputFactor)
  cbn_2 : ConditionalBatchNormalization Cz (base * outputFactor)
  conv_2 : SNConv2D 3 (base * outputFactor) (base * outputFactor)

/-- `ResidualUpsamplingBlock.call`: compute the identity path from the
input, then run the main pipeline (CBN, ReLU, concatenation of the
average-pooled mask, 2× bilinear upsampling, first 3×3 SN convolution,
CBN, ReLU, second 3×3 SN convolution) and add the identity
(`x += identity`).  Spatial dimensions exactly double. -/
def ResidualUpsamplingBlock.call {B H W Hm Wm : ℕ}
    {Cz base inF outF s : ℕ} (L : ResidualUpsamplingBlock Cz base inF outF s)
    (x : Tensor B H W (base * inF)) (z_k : Tensor B 1 1 Cz)
    (masks : Tensor B Hm Wm 1) (training : Bool) :
    Tensor B (2 * H) (2 * W) (base * outF) :=
  let identity := L.process_identity.call (upsample2x x) training
  let x1 := relu4 (L.cbn_1.call x z_k training)
  let x2 := concatCh x1 (maskPoolTo s H W masks)
  let x3 := L.conv_1.call (upsample2x x2) training
  let x4 := relu4 (L.cbn_2.call x3 z_k training)
  L.conv_2.call x4 training + identity

/-- `OutputBlock.__init__`: conditional batch normalization over
`base_channels * output_factor` filters and a spectrally-normalized `3×3`
convolution to 3 channels (consuming the one extra mask channel). -/
structure OutputBlock (Cz base outputFactor : ℕ) where
  cbn : ConditionalBatchNormalization Cz (base * outputFactor)
  conv : SNConv2D 3 (base * outputFactor + 1) 3

/-- `OutputBlock.call`: CBN, ReLU, concatenation of the full-resolution
mask, SN 3×3 convolution to 3 channels, hyperbolic tangent. -/
def OutputBlock.call {B H W : ℕ} {Cz base outF : ℕ}
    (L : OutputBlock Cz base outF) (x : Tensor B H W (base * outF))
    (z_k : Tensor B 1 1 Cz) (masks : Tensor B H W 1) (training : Bool) :
    Tensor B H W 3 :=
  fun b i j c =>
    tanhQ (L.conv.call (concatCh (relu4 (L.cbn.call x z_k training)) masks) training b i j c)

/-- `ClassGenerator.__init__` for class index `k`: the input block
(`output_factor=16`), four residual up-sampling blocks with factors
`16→16`, `16→8`, `8→4`, `4→2` and mask pool scales `32, 16, 8, 4`, the
self-attention module over `2 * base_channels` channels, a final residual
up-sampling block (`2→1`, mask scale `2`) and the output block.  The
weights are built by Keras on first call against noise dimensionality
`n_input`, which therefore appears as the type parameter `nInput`.

`block_3` is modelled from the spec: `SelfAttentionModule` (defined in
`network_components`, not under `src/`) is an external collaborator
computing global spatial attention over a feature map with a configured
channel count; it is modelled as an arbitrary shape-preserving map on
`[B,64,64,2·base]` feature tensors receiving the training flag. -/
structure ClassGenerator (nInput base : ℕ) where
  k : ℕ
  block_1 : InputBlock nInput base 16
  up_res_block_1 : ResidualUpsamplingBlock nInput base 16 16 32
  up_res_block_2 : ResidualUpsamplingBlock nInput base 16 8 16
  up_res_block_3 : ResidualUpsamplingBlock nInput base 8 4 8
  up_res_block_4 : ResidualUpsamplingBlock nInput base 4 2 4
  block_3 : (B : ℕ) → Tensor B 64 64 (base * 2) → Bool → Tensor B 64 64 (base * 2)
  block_4 : ResidualUpsamplingBlock nInput base 2 1 2
  block_5 : OutputBlock nInput base 1

/-- `z_k = tf.random.normal([batch_size, 1, 1, n_input])`: the single
explicit noise draw of a forward pass, modelled by reading
`batch_size * n_input` values off an ambient stream `rng` of
standard-normal draws (element `(b, i)` reads position `b·n_input+i`). -/
def sampleZ (B nInput : ℕ) (rng : ℕ → ℚ) : Tensor B 1 1 nInput :=
  fun b _ _ i => rng (b.val * nInput + i.val)

/-- `tf.expand_dims(Softmax(axis=3)(batch_masks_logits)[:, :, :, k],
axis=3)`: the single-channel probability mask of class `k`. -/
def maskAt {B H W nR : ℕ} (logits : Tensor B H W nR) (k : Fin nR) :
    Tensor B H W 1 :=
  fun b i j _ => softmax3 logits b i j k

/-- The redrawn-region pipeline of `ClassGenerator.call` (the body of the
`k == self.k` branch up to and including `block_5`): input block, four
residual up-sampling blocks, self-attention, final up-sampling block,
output block — all conditioned on the same noise vector and class mask. -/
def ClassGenerator.redraw {B : ℕ} {nInput base : ℕ}
    (G : ClassGenerator nInput base) (z_k : Tensor B 1 1 nInput)
    (masks_k : Tensor B 128 128 1) (training : Bool) : Tensor B 128 128 3 :=
  let x := G.block_1.call z_k training
  let x := G.up_res_block_1.call x z_k masks_k training
  let x := G.up_res_block_2.call x z_k masks_k training
  let x := G.up_res_block_3.call x z_k masks_k training
  let x := G.up_res_block_4.call x z_k masks_k training
  let x := G.block_3 B x training
  let x := G.block_4.call x z_k masks_k training
  G.block_5.call x z_k masks_k training

/-- One iteration of the `for k in range(n_regions)` loop of
`ClassGenerator.call`.  State: the accumulated batch of fake images
(started from `tf.zeros`) and the value of the Python variable
`batch_region_k_fake`, which is only assigned in the `k == self.k`
branch (hence an `Option`, `none` standing for "not yet assigned").
Note that the code overwrites `batch_region_k_fake` with
`batch_region_k_fake * batch_masks_k` before accumulating it. -/
def ClassGenerator.step {B nR : ℕ} {nInput base : ℕ}
    (G : ClassGenerator nInput base) (real : Tensor B 128 128 3)
    (logits : Tensor B 128 128 nR) (z_k : Tensor B 1 1 nInput)
    (training : Bool)
    (st : Tensor B 128 128 3 × Option (Tensor B 128 128 3)) (k : Fin nR) :
    Tensor B 128 128 3 × Option (Tensor B 128 128 3) :=
  let masks_k := maskAt logits k
  if k.val = G.k then
    let regionMasked : Tensor B 128 128 3 :=
      fun b i j c => G.redraw z_k masks_k training b i j c * masks_k b i j 0
    (st.1 + regionMasked, some regionMasked)
  else
    (st.1 + (fun b i j c => real b i j c * masks_k b i j 0), st.2)

/-- `ClassGenerator.call`: sample the noise vector once, loop over the
`n_regions` mask channels accumulating the composite fake image from a
zero tensor, and return `(batch_images_fake, batch_region_k_fake,
z_k[:, 0, 0, :])`.  If `self.k` never occurs in `range(n_regions)` the
Python return statement raises (`batch_region_k_fake` unassigned),
modelled by `none`. -/
def ClassGenerator.call {B nR : ℕ} {nInput base : ℕ}
    (G : ClassGenerator nInput base) (batch_images_real : Tensor B 128 128 3)
    (batch_masks_logits : Tensor B 128 128 nR) (rng : ℕ → ℚ)
    (training : Bool) :
    Option (Tensor B 128 128 3 × Tensor B 128 128 3 × (Fin B → Fin nInput → ℚ)) :=
  let st := (List.finRange nR).foldl
    (G.step batch_images_real batch_masks_logits (sampleZ B nInput rng) training)
    (0, none)
  match st.2 with
  | some batch_region_k_fake =>
      some (st.1, batch_region_k_fake, fun b i => sampleZ B nInput rng b 0 0 i)
  | none => none

/-- The accumulation performed by the loop of `ClassGenerator.call`,
abstracted over the raw redrawn-region tensor: starting from a zero
tensor shaped like the real image, add for each class `k` its
mask-weighted contribution — `regionRaw * mask_k` for the generator's
own class `k0`, `real * mask_k` for every other class. -/
def redrawComposite {B H W nR : ℕ} (real : Tensor B H W 3)
    (probs : Tensor B H W nR) (regionRaw : Tensor B H W 3) (k0 : ℕ) :
    Tensor B H W 3 :=
  (List.finRange nR).foldl
    (fun acc k =>
      acc + if k.val = k0
        then (fun b i j c => regionRaw b i j c * probs b i j k)
        else (fun b i j c => real b i j c * probs b i j k))
    0

/-- Result of `Generator.call`: only the batch of fake images when
`update_generator` is false, the triple `(batch_images_fake, batch_z_k,
batch_z_k_hat)` when it is true. -/
inductive GenResult (B nInput : ℕ) : Type where
  | imageOnly (batch_images_fake : Tensor B 128 128 3) : GenResult B nInput
  | withNoise (batch_images_fake : Tensor B 128 128 3)
      (batch_z_k batch_z_k_hat : Fin B → Fin nInput → ℚ) : GenResult B nInput

/-- The fake-image component of a `GenResult`. -/
def GenResult.fake {B nInput : ℕ} : GenResult B nInput → Tensor B 128 128 3
  | .imageOnly f => f
  | .withNoise f _ _ => f

/-- Modelled from the spec: the `InformationConservationNetwork` (defined
in `information_network`, not under `src/`) is an external collaborator
that estimates, from a generated region alone (plus the class index and
training flag), the noise vector that produced it; modelled as an
arbitrary function to a `[B, n_input]` matrix. -/
abbrev InfoNet (nInput : ℕ) : Type :=
  (B : ℕ) → Tensor B 128 128 3 → ℕ → Bool → (Fin B → Fin nInput → ℚ)

/-- `Generator.__init__`: one `ClassGenerator` per class — the list
comprehension `[ClassGenerator(init_gain=init_gain, k=k, ...) for k in
range(self.n_classes)]` guarantees the invariant `hk` that the `k`-th
entry's assigned class is `k` — plus the shared information-conservation
network (`information_network`, an external collaborator; see `InfoNet`). -/
structure Generator (n_classes nInput base : ℕ) where
  class_generators : Fin n_classes → ClassGenerator nInput base
  information_network : InfoNet nInput
  hk : ∀ k : Fin n_classes, (class_generators k).k = k.val

/-- Body of `Generator.call`, abstracted over the information-conservation
network so that its use can be counted: delegate to
`class_generators[k]`; if `update_generator` is set, additionally run the
returned region through `info` — the second component counts how many
times `info` is invoked (the single call site sits inside the
`if update_generator` branch) — and return the triple, else return only
the batch of fake images.  A `none` from the class generator models the
Python call raising before returning. -/
def Generator.callWith {n nInput base B : ℕ} (G : Generator n nInput base)
    (info : InfoNet nInput) (batch_images_real : Tensor B 128 128 3)
    (batch_masks_logits : Tensor B 128 128 n) (k : Fin n)
    (update_generator training : Bool) (rng : ℕ → ℚ) :
    Option (GenResult B nInput) × ℕ :=
  match (G.class_generators k).call batch_images_real batch_masks_logits rng training with
  | none => (none, 0)
  | some (batch_images_fake, batch_region_fake, batch_z_k) =>
    if update_generator then
      (some (.withNoise batch_images_fake batch_z_k
        (info B batch_region_fake k.val training)), 1)
    else
      (some (.imageOnly batch_images_fake), 0)

/-- `Generator.call`: `Generator.callWith` applied to the generator's own
information-conservation network. -/
def Generator.call {n nInput base B : ℕ} (G : Generator n nInput base)
    (batch_images_real : Tensor B 128 128 3)
    (batch_masks_logits : Tensor B 128 128 n) (k : Fin n)
    (update_generator training : Bool) (rng : ℕ → ℚ) :
    Option (GenResult B nInput) :=
  (G.callWith G.information_network batch_images_real batch_masks_logits k
    update_generator training rng).1

/-! ## Softmax facts -/

theorem softmax3_nonneg {B H W n : ℕ} (logits : Tensor B H W n)
    (b : Fin B) (i : Fin H) (j : Fin W) (k : Fin n) :
    0 ≤ softmax3 logits b i j k := by
  unfold softmax3
  exact div_nonneg (expQ_pos _).le
    (Finset.sum_nonneg fun k' _ => (expQ_pos _).le)

theorem softmax3_le_one {B H W n : ℕ} (logits : Tensor B H W n)
    (b : Fin B) (i : Fin H) (j : Fin W) (k : Fin n) :
    softmax3 logits b i j k ≤ 1 := by
  unfold softmax3
  have hpos : 0 < ∑ k' : Fin n, expQ (logits b i j k') :=
    Finset.sum_pos (fun k' _ => expQ_pos _) ⟨k, Finset.mem_univ k⟩
  exact (div_le_one hpos).mpr
    (Finset.single_le_sum (f := fun k' => expQ (logits b i j k'))
      (fun k' _ => (expQ_pos _).le) (Finset.mem_univ k))

theorem softmax3_sum {B H W n : ℕ} (hn : 0 < n) (logits : Tensor B H W n)
    (b : Fin B) (i : Fin H) (j : Fin W) :
    ∑ k : Fin n, softmax3 logits b i j k = 1 := by
  unfold softmax3
  rw [← Finset.sum_div]
  have : Nonempty (Fin n) := ⟨⟨0, hn⟩⟩
  have hpos : 0 < ∑ k' : Fin n, expQ (logits b i j k') :=
    Finset.sum_pos (fun k' _ => expQ_pos _) Finset.univ_nonempty
  exact div_self hpos.ne'

theorem softmax3_sum_le_one {B H W n : ℕ} (logits : Tensor B H W n)
    (b : Fin B) (i : Fin H) (j : Fin W) :
    ∑ k : Fin n, softmax3 logits b i j k ≤ 1 := by
  rcases Nat.eq_zero_or_pos n with h | h
  · subst h; simp
  · rw [softmax3_sum h]

/-! ## The loop of `ClassGenerator.call`, characterized -/

theorem foldl_add_eq {M : Type} [AddCommMonoid M] {α : Type} (f : α → M) :
    ∀ (l : List α) (a : M),
      l.foldl (fun acc k => acc + f k) a = a + (l.map f).sum := by
  intro l
  induction l with
  | nil => intro a; simp
  | cons x l ih =>
      intro a
      simp only [List.foldl_cons, List.map_cons, List.sum_cons, ih, add_assoc]

theorem tensorListSum_apply {B H W C : ℕ} :
    ∀ (l : List (Tensor B H W C)) (b : Fin B) (i : Fin H) (j : Fin W) (c : Fin C),
      l.sum b i j c = (l.map (fun t => t b i j c)).sum := by
  intro l
  induction l with
  | nil => intro b i j c; rfl
  | cons t l ih =>
      intro b i j c
      simp only [List.sum_cons, List.map_cons, Pi.add_apply, ih]

/-- Pointwise value of the composite accumulator: a sum over the class
axis of mask-weighted contributions. -/
theorem redrawComposite_apply {B H W nR : ℕ} (real : Tensor B H W 3)
    (probs : Tensor B H W nR) (regionRaw : Tensor B H W 3) (k0 : ℕ)
    (b : Fin B) (i : Fin H) (j : Fin W) (c : Fin 3) :
    redrawComposite real probs regionRaw k0 b i j c =
      ∑ k : Fin nR,
        (if k.val = k0 then regionRaw b i j c else real b i j c) * probs b i j k := by
  unfold redrawComposite
  rw [foldl_add_eq, zero_add, tensorListSum_apply, List.map_map, Fin.sum_univ_def]
  congr 1
  apply List.map_congr_left
  intro k _
  by_cases h : k.val = k0 <;> simp [h, Function.comp]

/-- Generic shape of the redraw loop: the first state component
accumulates a contribution for every element, the second is set (to a
value independent of the state) exactly on elements satisfying `Q`. -/
theorem foldl_accum_set {M T α : Type} [AddCommMonoid M] (g : α → M)
    (Q : α → Prop) [DecidablePred Q] (m : α → T) (v : T)
    (hm : ∀ a, Q a → m a = v) :
    ∀ (l : List α) (st : M × Option T),
      l.foldl (fun st a => (st.1 + g a, if Q a then some (m a) else st.2)) st =
        (l.foldl (fun acc a => acc + g a) st.1,
         if ∃ a ∈ l, Q a then some v else st.2) := by
  intro l
  induction l with
  | nil => intro st; simp
  | cons a l ih =>
      intro st
      rw [List.foldl_cons, List.foldl_cons, ih]
      by_cases hQa : Q a
      · by_cases hQl : ∃ x ∈ l, Q x <;> simp [hQa, hQl, hm a hQa]
      · by_cases hQl : ∃ x ∈ l, Q x <;> simp [hQa, hQl]

/-- The per-iteration state update of `ClassGenerator.call`, rewritten
with the branch pushed into each component. -/
theorem classGenerator_step_eq {B nR nInput base : ℕ}
    (G : ClassGenerator nInput base) (real : Tensor B 128 128 3)
    (logits : Tensor B 128 128 nR) (z : Tensor B 1 1 nInput) (tr : Bool)
    (st : Tensor B 128 128 3 × Option (Tensor B 128 128 3)) (a : Fin nR) :
    G.step real logits z tr st a =
      (st.1 +
        (if a.val = G.k
          then (fun b i j c =>
            G.redraw z (maskAt logits a) tr b i j c * softmax3 logits b i j a)
          else (fun b i j c => real b i j c * softmax3 logits b i j a)),
       if a.val = G.k
         then some (fun b i j c =>
           G.redraw z (maskAt logits a) tr b i j c * softmax3 logits b i j a)
         else st.2) := by
  unfold ClassGenerator.step
  by_cases hak : a.val = G.k <;> simp [hak] <;> rfl

/-- Structural characterization of `ClassGenerator.call` when the
generator's class is inside the mask's class range: the composite is the
mask-weighted accumulation `redrawComposite`, the second component is the
redrawn region multiplied by the class mask, and the third is the noise
draw with spatial axes squeezed. -/
theorem classGenerator_call_eq {B nR nInput base : ℕ}
    (G : ClassGenerator nInput base) (real : Tensor B 128 128 3)
    (logits : Tensor B 128 128 nR) (rng : ℕ → ℚ) (tr : Bool)
    (h : G.k < nR) :
    G.call real logits rng tr = some
      (redrawComposite real (softmax3 logits)
        (G.redraw (sampleZ B nInput rng) (maskAt logits ⟨G.k, h⟩) tr) G.k,
       fun b i j c =>
         G.redraw (sampleZ B nInput rng) (maskAt logits ⟨G.k, h⟩) tr b i j c *
           softmax3 logits b i j ⟨G.k, h⟩,
       fun b i => sampleZ B nInput rng b 0 0 i) := by
  have hstep : G.step real logits (sampleZ B nInput rng) tr =
      fun st a =>
        (st.1 +
          (if a.val = G.k
            then (fun b i j c =>
              G.redraw (sampleZ B nInput rng) (maskAt logits a) tr b i j c *
                softmax3 logits b i j a)
            else (fun b i j c => real b i j c * softmax3 logits b i j a)),
         if a.val = G.k
           then some (fun b i j c =>
             G.redraw (sampleZ B nInput rng) (maskAt logits a) tr b i j c *
               softmax3 logits b i j a)
           else st.2) := by
    funext st a
    exact classGenerator_step_eq G real logits (sampleZ B nInput rng) tr st a
  have hfold := foldl_accum_set
    (g := fun a : Fin nR =>
      if a.val = G.k
        then (fun b i j c =>
          G.redraw (sampleZ B nInput rng) (maskAt logits a) tr b i j c *
            softmax3 logits b i j a)
        else (fun b i j c => real b i j c * softmax3 logits b i j a))
    (Q := fun a : Fin nR => a.val = G.k)
    (m := fun a => fun b i j c =>
      G.redraw (sampleZ B nInput rng) (maskAt logits a) tr b i j c *
        softmax3 logits b i j a)
    (v := fun b i j c =>
      G.redraw (sampleZ B nInput rng) (maskAt logits ⟨G.k, h⟩) tr b i j c *
        softmax3 logits b i j ⟨G.k, h⟩)
    (by
      intro a ha
      have : a = (⟨G.k, h⟩ : Fin nR) := Fin.ext ha
      rw [this])
    (List.finRange nR) ((0 : Tensor B 128 128 3), (none : Option (Tensor B 128 128 3)))
  have hex : ∃ a ∈ List.finRange nR, a.val = G.k :=
    ⟨⟨G.k, h⟩, List.mem_finRange _, rfl⟩
  rw [if_pos hex] at hfold
  have hcomp :
      (List.finRange nR).foldl
        (fun acc a => acc +
          if a.val = G.k
            then (fun b i j c =>
              G.redraw (sampleZ B nInput rng) (maskAt logits a) tr b i j c *
                softmax3 logits b i j a)
            else (fun b i j c => real b i j c * softmax3 logits b i j a))
        (0 : Tensor B 128 128 3) =
      redrawComposite real (softmax3 logits)
        (G.redraw (sampleZ B nInput rng) (maskAt logits ⟨G.k, h⟩) tr) G.k := by
    unfold redrawComposite
    have hfn : (fun (acc : Tensor B 128 128 3) (a : Fin nR) =>
        acc + if a.val = G.k
          then (fun b i j c =>
            G.redraw (sampleZ B nInput rng) (maskAt logits a) tr b i j c *
              softmax3 logits b i j a)
          else (fun b i j c => real b i j c * softmax3 logits b i j a)) =
        (fun (acc : Tensor B 128 128 3) (a : Fin nR) =>
        acc + if a.val = G.k
          then (fun b i j c =>
            G.redraw (sampleZ B nInput rng) (maskAt logits ⟨G.k, h⟩) tr b i j c *
              softmax3 logits b i j a)
          else (fun b i j c => real b i j c * softmax3 logits b i j a)) := by
      funext acc a
      by_cases hak : a.val = G.k
      · have ha : a = (⟨G.k, h⟩ : Fin nR) := Fin.ext hak
        subst ha
        rfl
      · simp [hak]
    rw [hfn]
  rw [hcomp] at hfold
  unfold ClassGenerator.call
  rw [hstep, hfold]

/-- When the generator's class is outside the mask's class range, the
loop never assigns `batch_region_k_fake` and the call fails. -/
theorem classGenerator_call_none {B nR nInput base : ℕ}
    (G : ClassGenerator nInput base) (real : Tensor B 128 128 3)
    (logits : Tensor B 128 128 nR) (rng : ℕ → ℚ) (tr : Bool)
    (h : ¬ G.k < nR) :
    G.call real logits rng tr = none := by
  have hstep : G.step real logits (sampleZ B nInput rng) tr =
      fun st a =>
        (st.1 +
          (if a.val = G.k
            then (fun b i j c =>
              G.redraw (sampleZ B nInput rng) (maskAt logits a) tr b i j c *
                softmax3 logits b i j a)
            else (fun b i j c => real b i j c * softmax3 logits b i j a)),
         if a.val = G.k
           then some (fun b i j c =>
             G.redraw (sampleZ B nInput rng) (maskAt logits a) tr b i j c *
               softmax3 logits b i j a)
           else st.2) := by
    funext st a
    exact classGenerator_step_eq G real logits (sampleZ B nInput rng) tr st a
  have hfold := foldl_accum_set
    (g := fun a : Fin nR =>
      if a.val = G.k
        then (fun b i j c =>
          G.redraw (sampleZ B nInput rng) (maskAt logits a) tr b i j c *
            softmax3 logits b i j a)
        else (fun b i j c => real b i j c * softmax3 logits b i j a))
    (Q := fun a : Fin nR => a.val = G.k)
    (m := fun a => fun b i j c =>
      G.redraw (sampleZ B nInput rng) (maskAt logits a) tr b i j c *
        softmax3 logits b i j a)
    (v := (0 : Tensor B 128 128 3))
    (by
      intro a ha
      exact absurd (ha ▸ a.isLt) h)
    (List.finRange nR) ((0 : Tensor B 128 128 3), (none : Option (Tensor B 128 128 3)))
  have hex : ¬ ∃ a ∈ List.finRange nR, a.val = G.k := by
    rintro ⟨a, _, ha⟩
    exact h (ha ▸ a.isLt)
  rw [if_neg hex] at hfold
  unfold ClassGenerator.call
  rw [hstep, hfold]

/-! ## A concrete weight assignment, used by witnesses and counterexamples

All kernels and biases zero (spectral estimates 1, attention the identity)
except the output block's convolution bias, set to 1: the redrawn region
is then the constant `tanhQ 1 = 1/2` while everything else vanishes. -/

def zeroSN (K Cin Cout : ℕ) : SNConv2D K Cin Cout :=
  ⟨fun _ _ _ _ => 0, fun _ => 0, 1⟩

def oneBiasSN (K Cin Cout : ℕ) : SNConv2D K Cin Cout :=
  ⟨fun _ _ _ _ => 0, fun _ => 1, 1⟩

def zeroCBN (Cz C : ℕ) : ConditionalBatchNormalization Cz C :=
  ⟨fun _ _ => 0, fun _ => 0, fun _ _ => 0, fun _ => 0⟩

def zeroInputBlock (Cz base outF : ℕ) : InputBlock Cz base outF :=
  ⟨fun _ _ => 0, fun _ => 0, zeroCBN Cz (base * outF)⟩

def zeroRUB (Cz base inF outF s : ℕ) :
    ResidualUpsamplingBlock Cz base inF outF s :=
  ⟨zeroSN 1 (base * inF) (base * outF), zeroCBN Cz (base * inF),
   zeroSN 3 (base * inF + 1) (base * outF), zeroCBN Cz (base * outF),
   zeroSN 3 (base * outF) (base * outF)⟩

def oneOutputBlock (Cz base outF : ℕ) : OutputBlock Cz base outF :=
  ⟨zeroCBN Cz (base * outF), oneBiasSN 3 (base * outF + 1) 3⟩

/-- A `ClassGenerator` (noise dim 1, base channels 1) for class `k` with
the concrete weights described above; the self-attention collaborator is
instantiated with the identity map. -/
def zeroCG (k : ℕ) : ClassGenerator 1 1 where
  k := k
  block_1 := zeroInputBlock 1 1 16
  up_res_block_1 := zeroRUB 1 1 16 16 32
  up_res_block_2 := zeroRUB 1 1 16 8 16
  up_res_block_3 := zeroRUB 1 1 8 4 8
  up_res_block_4 := zeroRUB 1 1 4 2 4
  block_3 := fun _ x _ => x
  block_4 := zeroRUB 1 1 2 1 2
  block_5 := oneOutputBlock 1 1 1

/-- A two-class `Generator` over the concrete class generators, with a
zero information-conservation network. -/
def zeroGen : Generator 2 1 1 where
  class_generators := fun k => zeroCG k.val
  information_network := fun _ _ _ _ => fun _ _ => 0
  hk := fun _ => rfl

def realConst (q : ℚ) : Tensor 1 128 128 3 := fun _ _ _ _ => q

def logitsZero : Tensor 1 128 128 2 := fun _ _ _ _ => 0

def rngZero : ℕ → ℚ := fun _ => 0

theorem conv2d_zero_kernel {B H W Cin Cout : ℕ} (K : ℕ)
    (bias : Fin Cout → ℚ) (x : Tensor B H W Cin) :
    conv2d K (fun _ _ _ _ => (0 : ℚ)) bias x = fun _ _ _ co => bias co := by
  funext b i j co
  simp [conv2d]

theorem zeroSN_call {B H W K Cin Cout : ℕ} (x : Tensor B H W Cin) (tr : Bool) :
    (zeroSN K Cin Cout).call x tr = fun _ _ _ _ => (0 : ℚ) := by
  funext b i j co
  simp [SNConv2D.call, zeroSN, conv2d]

theorem oneBiasSN_call {B H W K Cin Cout : ℕ} (x : Tensor B H W Cin) (tr : Bool) :
    (oneBiasSN K Cin Cout).call x tr = fun _ _ _ _ => (1 : ℚ) := by
  funext b i j co
  simp [SNConv2D.call, oneBiasSN, conv2d]

theorem zeroCBN_call {B H W Cz C : ℕ} (x : Tensor B H W C)
    (z : Tensor B 1 1 Cz) (tr : Bool) :
    (zeroCBN Cz C).call x z tr = fun _ _ _ _ => (0 : ℚ) := by
  funext b i j c
  simp [ConditionalBatchNormalization.call, zeroCBN, conv1x1, conv2d]

theorem zeroRUB_call {B H W Hm Wm Cz base inF outF s : ℕ}
    (x : Tensor B H W (base * inF)) (z : Tensor B 1 1 Cz)
    (masks : Tensor B Hm Wm 1) (tr : Bool) :
    (zeroRUB Cz base inF outF s).call x z masks tr = fun _ _ _ _ => (0 : ℚ) := by
  funext b i j c
  simp [ResidualUpsamplingBlock.call, zeroRUB, zeroSN_call]

/-- With the concrete weights, the redrawn-region pipeline is the
constant `tanhQ 1 = 1/2`, whatever the inputs. -/
theorem zeroCG_redraw {B : ℕ} (k : ℕ) (z : Tensor B 1 1 1)
    (m : Tensor B 128 128 1) (tr : Bool) :
    (zeroCG k).redraw z m tr = fun _ _ _ _ => (1 : ℚ) / 2 := by
  funext b i j c
  show (zeroCG k).block_5.call _ z m tr b i j c = 1 / 2
  unfold OutputBlock.call
  show tanhQ ((oneOutputBlock 1 1 1).conv.call _ tr b i j c) = 1 / 2
  rw [show (oneOutputBlock 1 1 1).conv = oneBiasSN 3 (1 * 1 + 1) 3 from rfl,
    oneBiasSN_call]
  norm_num [tanhQ]

theorem softmax3_logitsZero (b : Fin 1) (i j : Fin 128) (k : Fin 2) :
    softmax3 logitsZero b i j k = 1 / 2 := by
  simp [softmax3, logitsZero, Fin.sum_univ_two, expQ]

/-- Composite fake image of the concrete call on a constant-`q` real
image: `1/2 · 1/2 + q · 1/2`. -/
def compositeZ (q : ℚ) : Tensor 1 128 128 3 := fun _ _ _ _ => 1 / 4 + q * (1 / 2)

/-- Returned region of the concrete call: raw `1/2` times mask `1/2`. -/
def regionZ : Tensor 1 128 128 3 := fun _ _ _ _ => 1 / 4

/-- Squeezed noise vector of the concrete call (the stream is zero). -/
def zSqueezeZ : Fin 1 → Fin 1 → ℚ := fun _ _ => 0

/-- Concrete end-to-end evaluation of `ClassGenerator.call` at the weight
assignment `zeroCG 0`, a constant-`q` real image, all-zero mask logits
over two classes and the zero noise stream. -/
theorem zeroCG_call_eval (q : ℚ) :
    (zeroCG 0).call (realConst q) logitsZero rngZero false =
      some (compositeZ q, regionZ, zSqueezeZ) := by
  have h : (zeroCG 0).k < 2 := by decide
  rw [classGenerator_call_eq (zeroCG 0) (realConst q) logitsZero rngZero false h]
  have hA : redrawComposite (realConst q) (softmax3 logitsZero)
      ((zeroCG 0).redraw (sampleZ 1 1 rngZero)
        (maskAt logitsZero ⟨(zeroCG 0).k, h⟩) false) (zeroCG 0).k = compositeZ q := by
    funext b i j c
    rw [redrawComposite_apply, zeroCG_redraw]
    simp only [Fin.sum_univ_two, softmax3_logitsZero, realConst, compositeZ]
    norm_num [zeroCG]
  have hB : (fun b i j c =>
      (zeroCG 0).redraw (sampleZ 1 1 rngZero)
          (maskAt logitsZero ⟨(zeroCG 0).k, h⟩) false b i j c *
        softmax3 logitsZero b i j ⟨(zeroCG 0).k, h⟩) = regionZ := by
    funext b i j c
    rw [zeroCG_redraw]
    simp only [softmax3_logitsZero, regionZ]
    norm_num
  have hC : (fun (b : Fin 1) (i : Fin 1) => sampleZ 1 1 rngZero b 0 0 i) = zSqueezeZ :=
    rfl
  rw [hA, hB, hC]

/-- Concrete end-to-end evaluation of `Generator.call` (class 0,
`update_generator = False`) at the same inputs. -/
theorem zeroGen_call_eval (q : ℚ) :
    zeroGen.call (realConst q) logitsZero (0 : Fin 2) false false rngZero =
      some (.imageOnly (compositeZ q)) := by
  unfold Generator.call Generator.callWith
  rw [show (zeroGen.class_generators (0 : Fin 2)).call (realConst q) logitsZero
        rngZero false = some (compositeZ q, regionZ, zSqueezeZ) from zeroCG_call_eval q]
  rfl

/-! ## Range and noise-dependence lemmas -/

/-- The redrawn-region pipeline ends in the output block's hyperbolic
tangent, so its values lie in `[-1, 1]`. -/
theorem redraw_abs_le_one {B nInput base : ℕ} (G : ClassGenerator nInput base)
    (z : Tensor B 1 1 nInput) (m : Tensor B 128 128 1) (tr : Bool)
    (b : Fin B) (i j : Fin 128) (c : Fin 3) :
    |G.redraw z m tr b i j c| ≤ 1 := by
  show |G.block_5.call _ z m tr b i j c| ≤ 1
  unfold OutputBlock.call
  exact abs_tanhQ_le_one _

/-- The mask-weighted accumulation stays in `[-1, 1]` whenever both the
real image and the raw redrawn region do: each contribution is bounded by
its mask probability, and the probabilities sum to at most 1. -/
theorem redrawComposite_abs_le_one {B H W nR : ℕ} (real : Tensor B H W 3)
    (logits : Tensor B H W nR) (regionRaw : Tensor B H W 3) (k0 : ℕ)
    (hreal : ∀ b i j c, |real b i j c| ≤ 1)
    (hregion : ∀ b i j c, |regionRaw b i j c| ≤ 1)
    (b : Fin B) (i : Fin H) (j : Fin W) (c : Fin 3) :
    |redrawComposite real (softmax3 logits) regionRaw k0 b i j c| ≤ 1 := by
  rw [redrawComposite_apply]
  calc |∑ k : Fin nR,
          (if k.val = k0 then regionRaw b i j c else real b i j c) *
            softmax3 logits b i j k|
      ≤ ∑ k : Fin nR,
          |(if k.val = k0 then regionRaw b i j c else real b i j c) *
            softmax3 logits b i j k| := Finset.abs_sum_le_sum_abs _ _
    _ ≤ ∑ k : Fin nR, softmax3 logits b i j k := by
        apply Finset.sum_le_sum
        intro k _
        rw [abs_mul, abs_of_nonneg (softmax3_nonneg logits b i j k)]
        apply mul_le_of_le_one_left (softmax3_nonneg logits b i j k)
        split
        · exact hregion b i j c
        · exact hreal b i j c
    _ ≤ 1 := softmax3_sum_le_one logits b i j

/-- The noise draw reads only the first `B * n_input` values of the
ambient stream. -/
theorem sampleZ_congr {B nInput : ℕ} (rng1 rng2 : ℕ → ℚ)
    (h : ∀ m, m < B * nInput → rng1 m = rng2 m) :
    sampleZ B nInput rng1 = sampleZ B nInput rng2 := by
  funext b u v i
  apply h
  calc b.val * nInput + i.val < b.val * nInput + nInput := by
        have := i.isLt; omega
    _ = (b.val + 1) * nInput := by ring
    _ ≤ B * nInput := Nat.mul_le_mul_right _ b.isLt

/-! ## The claims -/

/-- C1: for every call of `Generator.call` (through `Generator.callWith`,
whose second component counts invocations of the information-conservation
network): if `update_generator` is true the result is the triple
`(fake image batch, noise vector z, estimated noise vector z_hat)` with the
information-conservation network invoked exactly once, on the redrawn
region; if `update_generator` is false the result is only the fake image
batch and the information-conservation network is never invoked (count 0,
and the result does not depend on the network at all). -/
theorem claim_C1_update_generator_flag {n nInput base B : ℕ}
    (G : Generator n nInput base) (f : InfoNet nInput)
    (real : Tensor B 128 128 3) (logits : Tensor B 128 128 n) (k : Fin n)
    (rng : ℕ → ℚ) (tr : Bool) (fake region : Tensor B 128 128 3)
    (z : Fin B → Fin nInput → ℚ)
    (hcc : (G.class_generators k).call real logits rng tr = some (fake, region, z)) :
    G.callWith f real logits k true tr rng =
        (some (.withNoise fake z (f B region k.val tr)), 1)
    ∧ G.callWith f real logits k false tr rng = (some (.imageOnly fake), 0)
    ∧ G.call real logits k true tr rng =
        some (.withNoise fake z (G.information_network B region k.val tr))
    ∧ G.call real logits k false tr rng = some (.imageOnly fake) := by
  unfold Generator.call Generator.callWith
  rw [hcc]
  exact ⟨rfl, rfl, rfl, rfl⟩

/-- Witness for C1 at the concrete generator `zeroGen`, discharging the
class-generator-call hypothesis by the concrete evaluation. -/
theorem claim_C1_witness :
    (zeroGen.class_generators (0 : Fin 2)).call (realConst 4) logitsZero
        rngZero false = some (compositeZ 4, regionZ, zSqueezeZ)
    ∧ zeroGen.call (realConst 4) logitsZero (0 : Fin 2) true false rngZero =
        some (.withNoise (compositeZ 4) zSqueezeZ
          (zeroGen.information_network 1 regionZ 0 false))
    ∧ zeroGen.call (realConst 4) logitsZero (0 : Fin 2) false false rngZero =
        some (.imageOnly (compositeZ 4)) :=
  ⟨zeroCG_call_eval 4,
   (claim_C1_update_generator_flag zeroGen zeroGen.information_network
     (realConst 4) logitsZero 0 rngZero false (compositeZ 4) regionZ zSqueezeZ
     (zeroCG_call_eval 4)).2.2.1,
   (claim_C1_update_generator_flag zeroGen zeroGen.information_network
     (realConst 4) logitsZero 0 rngZero false (compositeZ 4) regionZ zSqueezeZ
     (zeroCG_call_eval 4)).2.2.2⟩

/-- C2 counterexample: at the concrete instance, the second component of
the triple returned by `ClassGenerator.call` has value `1/4` at pixel
`(0,0,0,0)` while the raw (pre-mask) output of the redrawn-region
pipeline has value `1/2` there — the returned component is not the raw
unmasked output the claim describes. -/
theorem claim_C2_counterexample :
    ((zeroCG 0).call (realConst 4) logitsZero rngZero false).map
        (fun r => r.2.1 0 0 0 0) = some (1 / 4)
    ∧ (zeroCG 0).redraw (sampleZ 1 1 rngZero)
        (maskAt logitsZero ⟨0, by decide⟩) false 0 0 0 0 = 1 / 2
    ∧ ((1 : ℚ) / 4) ≠ 1 / 2 := by
  refine ⟨?_, ?_, by norm_num⟩
  · rw [zeroCG_call_eval 4]
    rfl
  · rw [zeroCG_redraw]

/-- C2 (amended): for every call of `ClassGenerator.call` with the
generator's class index inside the mask's class range, the returned
triple consists of the composite image, the redrawn-region output *after*
multiplication by the class mask (the Python code overwrites
`batch_region_k_fake` with `batch_region_k_fake * batch_masks_k` before
returning it), and the sampled noise vector with its two spatial
dimensions squeezed to shape `[B, n_input]`. -/
theorem claim_C2_classgen_return {B nR nInput base : ℕ}
    (G : ClassGenerator nInput base) (real : Tensor B 128 128 3)
    (logits : Tensor B 128 128 nR) (rng : ℕ → ℚ) (tr : Bool)
    (h : G.k < nR) :
    G.call real logits rng tr = some
      (redrawComposite real (softmax3 logits)
         (G.redraw (sampleZ B nInput rng) (maskAt logits ⟨G.k, h⟩) tr) G.k,
       fun b i j c =>
         G.redraw (sampleZ B nInput rng) (maskAt logits ⟨G.k, h⟩) tr b i j c *
           softmax3 logits b i j ⟨G.k, h⟩,
       fun b i => sampleZ B nInput rng b 0 0 i) :=
  classGenerator_call_eq G real logits rng tr h

/-- Witness for C2 (amended) at the concrete instance. -/
theorem claim_C2_witness :
    (zeroCG 0).k < 2
    ∧ (zeroCG 0).call (realConst 4) logitsZero rngZero false = some
        (redrawComposite (realConst 4) (softmax3 logitsZero)
           ((zeroCG 0).redraw (sampleZ 1 1 rngZero)
             (maskAt logitsZero ⟨(zeroCG 0).k, by decide⟩) false) (zeroCG 0).k,
         fun b i j c =>
           (zeroCG 0).redraw (sampleZ 1 1 rngZero)
               (maskAt logitsZero ⟨(zeroCG 0).k, by decide⟩) false b i j c *
             softmax3 logitsZero b i j ⟨(zeroCG 0).k, by decide⟩,
         fun b i => sampleZ 1 1 rngZero b 0 0 i) :=
  ⟨by decide,
   claim_C2_classgen_return (zeroCG 0) (realConst 4) logitsZero rngZero false
     (by decide)⟩

/-- C3: the composite image of `ClassGenerator.call` is the accumulation
`redrawComposite` — started from a zero tensor, adding for each class its
mask-weighted contribution — and if the redrawn-region output for the
generator's own class is replaced by the real input image, the composite
equals the real input image exactly, because the per-pixel softmax mask
probabilities sum to 1 across classes. -/
theorem claim_C3_composite_identity {B nR nInput base : ℕ}
    (G : ClassGenerator nInput base) (real : Tensor B 128 128 3)
    (logits : Tensor B 128 128 nR) (rng : ℕ → ℚ) (tr : Bool)
    (h : G.k < nR) (hn : 0 < nR) :
    (∀ composite region z,
        G.call real logits rng tr = some (composite, region, z) →
        composite = redrawComposite real (softmax3 logits)
          (G.redraw (sampleZ B nInput rng) (maskAt logits ⟨G.k, h⟩) tr) G.k)
    ∧ ∀ k0 : ℕ, redrawComposite real (softmax3 logits) real k0 = real := by
  constructor
  · intro composite region z hc
    rw [classGenerator_call_eq G real logits rng tr h] at hc
    exact congrArg Prod.fst (Option.some.inj hc).symm
  · intro k0
    funext b i j c
    rw [redrawComposite_apply]
    have hsum : ∑ k : Fin nR,
        (if k.val = k0 then real b i j c else real b i j c) *
          softmax3 logits b i j k =
        real b i j c * ∑ k : Fin nR, softmax3 logits b i j k := by
      rw [Finset.mul_sum]
      apply Finset.sum_congr rfl
      intro k _
      split <;> ring
    rw [hsum, softmax3_sum hn logits b i j, mul_one]

/-- Witness for C3 at the concrete instance: replacing the redrawn region
by the constant-4 real image reconstructs that image exactly. -/
theorem claim_C3_witness :
    (zeroCG 0).k < 2 ∧ 0 < 2
    ∧ redrawComposite (realConst 4) (softmax3 logitsZero) (realConst 4) 0 =
        realConst 4 :=
  ⟨by decide, by decide,
   (claim_C3_composite_identity (zeroCG 0) (realConst 4) logitsZero rngZero
     false (by decide) (by decide)).2 0⟩

/-- C4 counterexample: on a constant-4 real image (two classes, uniform
masks), the fake image returned by `Generator.call` has value `9/4 > 1`
at pixel `(0,0,0,0)` — without a bound on the real image, the output does
not lie in `[-1, 1]`, because non-redrawn regions pass the real image
through. -/
theorem claim_C4_counterexample :
    (zeroGen.call (realConst 4) logitsZero (0 : Fin 2) false false rngZero).map
        (fun r => r.fake 0 0 0 0) = some (9 / 4)
    ∧ ¬ ((9 : ℚ) / 4 ≤ 1) := by
  refine ⟨?_, by norm_num⟩
  rw [zeroGen_call_eval 4]
  norm_num [GenResult.fake, compositeZ]

/-- C4 (amended): for every call of `Generator.call` on a real-image
batch *whose values lie in `[-1, 1]`*, the returned fake-image batch has
shape `[B,128,128,3]` (carried by the `Tensor B 128 128 3` type of
`GenResult.fake`) and every element lies in `[-1, 1]`: the redrawn
region is bounded by the final hyperbolic tangent and every contribution
is weighted by mask probabilities summing to at most 1. -/
theorem claim_C4_output_range {n nInput base B : ℕ}
    (G : Generator n nInput base) (real : Tensor B 128 128 3)
    (logits : Tensor B 128 128 n) (k : Fin n) (upd tr : Bool) (rng : ℕ → ℚ)
    (hreal : ∀ b i j c, |real b i j c| ≤ 1) :
    ∀ r, G.call real logits k upd tr rng = some r →
      ∀ b i j c, -1 ≤ r.fake b i j c ∧ r.fake b i j c ≤ 1 := by
  intro r hr b i j c
  have hk : (G.class_generators k).k < n := by rw [G.hk k]; exact k.isLt
  unfold Generator.call Generator.callWith at hr
  rw [classGenerator_call_eq _ _ _ _ _ hk] at hr
  have habs : |redrawComposite real (softmax3 logits)
      ((G.class_generators k).redraw (sampleZ B nInput rng)
        (maskAt logits ⟨(G.class_generators k).k, hk⟩) tr)
      (G.class_generators k).k b i j c| ≤ 1 :=
    redrawComposite_abs_le_one real logits _ _ hreal
      (fun b i j c => redraw_abs_le_one _ _ _ _ b i j c) b i j c
  cases upd
  · simp only [Bool.false_eq_true, if_false] at hr
    rw [← Option.some.inj hr]
    exact abs_le.mp habs
  · simp only [if_true] at hr
    rw [← Option.some.inj hr]
    exact abs_le.mp habs

/-- Witness for C4 (amended) at the concrete generator and the constant-0
real image (which lies in `[-1, 1]`). -/
theorem claim_C4_witness :
    (∀ b i j c, |realConst 0 b i j c| ≤ 1)
    ∧ zeroGen.call (realConst 0) logitsZero (0 : Fin 2) false false rngZero =
        some (.imageOnly (compositeZ 0))
    ∧ (-1 ≤ (GenResult.imageOnly (compositeZ 0) : GenResult 1 1).fake 0 0 0 0
        ∧ (GenResult.imageOnly (compositeZ 0) : GenResult 1 1).fake 0 0 0 0 ≤ 1) := by
  have h1 : ∀ (b : Fin 1) (i j : Fin 128) (c : Fin 3), |realConst 0 b i j c| ≤ 1 := by
    intro b i j c
    simp [realConst]
  exact ⟨h1, zeroGen_call_eval 0,
    claim_C4_output_range zeroGen (realConst 0) logitsZero 0 false false
      rngZero h1 (.imageOnly (compositeZ 0)) (zeroGen_call_eval 0) 0 0 0 0⟩

/-- C5: for every call of `ResidualUpsamplingBlock.call` on a feature map
of shape `[B,H,W,Cin]`, the output equals the sum of the main path — CBN
conditioned on `z`, ReLU, concatenation of the area-pooled class mask as
one extra channel, 2× bilinear upsampling, spectrally-normalized 3×3
convolution to `Cout`, a second CBN, ReLU and a second
spectrally-normalized 3×3 convolution to `Cout` — and the identity path —
2× bilinear upsampling followed by a spectrally-normalized 1×1
convolution to `Cout`.  The output's spatial dimensions are exactly
`2H × 2W`, carried by its type `Tensor B (2*H) (2*W) (base*outF)`. -/
theorem claim_C5_rub_structure {B H W Hm Wm Cz base inF outF s : ℕ}
    (L : ResidualUpsamplingBlock Cz base inF outF s)
    (x : Tensor B H W (base * inF)) (z_k : Tensor B 1 1 Cz)
    (masks : Tensor B Hm Wm 1) (tr : Bool) :
    L.call x z_k masks tr =
      L.conv_2.call
        (relu4 (L.cbn_2.call
          (L.conv_1.call
            (upsample2x
              (concatCh (relu4 (L.cbn_1.call x z_k tr)) (maskPoolTo s H W masks)))
            tr)
          z_k tr))
        tr
      + L.process_identity.call (upsample2x x) tr := rfl

/-- C6: after the normalized-exponential step over the class axis (the
softmax applied to the mask logits inside `ClassGenerator.step`), every
per-pixel per-class mask probability lies in `[0, 1]` and, at every
pixel, the probabilities sum to 1 across the (nonempty) class axis. -/
theorem claim_C6_softmax_partition {B H W n : ℕ} (logits : Tensor B H W n)
    (hn : 0 < n) (b : Fin B) (i : Fin H) (j : Fin W) :
    (∀ k, 0 ≤ softmax3 logits b i j k ∧ softmax3 logits b i j k ≤ 1)
    ∧ ∑ k : Fin n, softmax3 logits b i j k = 1 :=
  ⟨fun k => ⟨softmax3_nonneg logits b i j k, softmax3_le_one logits b i j k⟩,
   softmax3_sum hn logits b i j⟩

/-- Witness for C6 on the all-zero two-class logits. -/
theorem claim_C6_witness :
    0 < 2
    ∧ (∀ k, 0 ≤ softmax3 logitsZero 0 0 0 k ∧ softmax3 logitsZero 0 0 0 k ≤ 1)
    ∧ ∑ k : Fin 2, softmax3 logitsZero 0 0 0 k = 1 :=
  ⟨by decide,
   (claim_C6_softmax_partition logitsZero (by decide) 0 0 0).1,
   (claim_C6_softmax_partition logitsZero (by decide) 0 0 0).2⟩

/-- C7: `InputBlock.call` on a `[B,1,1,n_input]` noise vector produces the
`[B,4,4,base_channels·output_factor]` feature grid (carried by the
output type) obtained by the fully-connected projection to
`output_channels·4·4` units, the reshape to the `4×4` grid, conditional
batch normalization conditioned on the same noise vector, and ReLU; and
the call fails with a shape error exactly when the dense layer's unit
count and the reshape's target dimensions do not match — a condition that
is unsatisfiable, because the unit count is defined as
`output_channels * 4 * 4`, so the checked call always succeeds. -/
theorem claim_C7_inputblock_reshape {B Cz base outF : ℕ}
    (L : InputBlock Cz base outF) (z_k : Tensor B 1 1 Cz) (tr : Bool) :
    L.callChecked z_k tr = some (L.call z_k tr)
    ∧ L.call z_k tr =
        relu4 (L.cbn.call
          (fun b i j c =>
            L.dense z_k b 0 0
              ⟨i.val * (4 * (base * outF)) + j.val * (base * outF) + c.val,
               pack_lt i j c⟩)
          z_k tr)
    ∧ (L.callChecked z_k tr = none ↔
        ¬ (base * outF * 4 * 4 = base * outF * 4 * 4)) := by
  have h1 : L.callChecked z_k tr = some (L.call z_k tr) := by
    unfold InputBlock.callChecked reshapeTo4x4
    rw [dif_pos rfl]
    rfl
  refine ⟨h1, rfl, ?_, ?_⟩
  · intro hn
    rw [h1] at hn
    exact absurd hn (by simp)
  · intro hne
    exact absurd rfl hne

/-- C8: a forward pass with a fixed noise vector is bit-identical across
repetitions — the single explicit noise draw (`sampleZ`, the model of the
one `tf.random.normal` call) is the only point where the ambient
randomness stream is read: any two streams that agree on the
`B * n_input` values of that draw yield equal outputs of both
`ClassGenerator.call` and `Generator.call` with `training = False`. -/
theorem claim_C8_noise_determinism {n nInput base B : ℕ}
    (G : Generator n nInput base) (real : Tensor B 128 128 3)
    (logits : Tensor B 128 128 n) (k : Fin n) (upd : Bool)
    (rng1 rng2 : ℕ → ℚ) (h : ∀ m, m < B * nInput → rng1 m = rng2 m) :
    (G.class_generators k).call real logits rng1 false =
      (G.class_generators k).call real logits rng2 false
    ∧ G.call real logits k upd false rng1 =
        G.call real logits k upd false rng2 := by
  have hz : sampleZ B nInput rng1 = sampleZ B nInput rng2 :=
    sampleZ_congr rng1 rng2 h
  have hcc : ∀ CG : ClassGenerator nInput base,
      CG.call real logits rng1 false = CG.call real logits rng2 false := by
    intro CG
    unfold ClassGenerator.call
    rw [hz]
  refine ⟨hcc _, ?_⟩
  unfold Generator.call Generator.callWith
  rw [hcc (G.class_generators k)]

/-- An alternative stream agreeing with `rngZero` on the draw's range. -/
def rngAlt : ℕ → ℚ := fun m => if m = 0 then 0 else 7

/-- Witness for C8: the zero stream and `rngAlt` agree on the single
drawn value, so the concrete forward passes coincide. -/
theorem claim_C8_witness :
    (∀ m, m < 1 * 1 → rngZero m = rngAlt m)
    ∧ (zeroGen.class_generators (0 : Fin 2)).call (realConst 4) logitsZero
        rngZero false =
      (zeroGen.class_generators (0 : Fin 2)).call (realConst 4) logitsZero
        rngAlt false
    ∧ zeroGen.call (realConst 4) logitsZero (0 : Fin 2) false false rngZero =
        zeroGen.call (realConst 4) logitsZero (0 : Fin 2) false false rngAlt := by
  have h : ∀ m, m < 1 * 1 → rngZero m = rngAlt m := by
    intro m hm
    have hm0 : m = 0 := by omega
    subst hm0
    simp [rngZero, rngAlt]
  exact ⟨h,
    (claim_C8_noise_determinism zeroGen (realConst 4) logitsZero 0 false
      rngZero rngAlt h).1,
    (claim_C8_noise_determinism zeroGen (realConst 4) logitsZero 0 false
      rngZero rngAlt h).2⟩

/-- C9: `ClassGenerator.call` fails at its return statement (the
redrawn-region variable `batch_region_k_fake` is never assigned, modelled
by the `none` result) exactly when the generator's assigned class `self.k`
is not in `range(n_regions)`, `n_regions` being the channel count of the
mask-logits class axis; a defined result requires `self.k < n_regions`. -/
theorem claim_C9_out_of_range {B nR nInput base : ℕ}
    (G : ClassGenerator nInput base) (real : Tensor B 128 128 3)
    (logits : Tensor B 128 128 nR) (rng : ℕ → ℚ) (tr : Bool) :
    G.call real logits rng tr = none ↔ nR ≤ G.k := by
  constructor
  · intro hn
    by_contra hlt
    rw [classGenerator_call_eq G real logits rng tr (by omega)] at hn
    exact Option.noConfusion hn
  · intro hge
    exact classGenerator_call_none G real logits rng tr (by omega)

/-- Witness for C9: a class generator assigned class 5 over a two-channel
mask axis returns `none`. -/
theorem claim_C9_witness :
    (zeroCG 5).call (realConst 4) logitsZero rngZero false = none
    ∧ 2 ≤ (zeroCG 5).k :=
  ⟨(claim_C9_out_of_range (zeroCG 5) (realConst 4) logitsZero rngZero
      false).mpr (by decide),
   by decide⟩

/-- C10: the output of `ConditionalBatchNormalization.call` for a batch
element depends only on that element's feature map and conditioning
vector — the instance-normalization statistics are computed over the
spatial axes only, never across the batch — and is independent of
training versus inference mode (the layer's `call` declares no training
parameter, surfaced here as an ignored flag). -/
theorem claim_C10_cbn_per_element {B H W Cz C : ℕ}
    (L : ConditionalBatchNormalization Cz C) (x y : Tensor B H W C)
    (z w : Tensor B 1 1 Cz) (t u : Bool) (b : Fin B)
    (hx : x b = y b) (hz : z b = w b) :
    L.call x z t b = L.call x z u b ∧ L.call x z t b = L.call y w t b := by
  refine ⟨rfl, ?_⟩
  funext i j c
  unfold ConditionalBatchNormalization.call conv1x1 conv2d padGet
    layerNormSpatial spatialVar spatialMean
  simp only [hx, hz]

def xW : Tensor 2 1 1 1 := fun b _ _ _ => if b.val = 0 then 1 else 2

def yW : Tensor 2 1 1 1 := fun b _ _ _ => if b.val = 0 then 1 else 3

def zW : Tensor 2 1 1 1 := fun _ _ _ _ => 1

/-- Witness for C10: two feature maps agreeing on batch element 0 but
differing on batch element 1 produce the same output at element 0, in
both training and inference mode. -/
theorem claim_C10_witness :
    xW 0 = yW 0 ∧ zW 0 = zW 0
    ∧ ((zeroCBN 1 1).call xW zW true 0 = (zeroCBN 1 1).call xW zW false 0
       ∧ (zeroCBN 1 1).call xW zW true 0 = (zeroCBN 1 1).call yW zW true 0) := by
  have hx : xW 0 = yW 0 := by
    funext i j c
    simp [xW, yW]
  exact ⟨hx, rfl,
    claim_C10_cbn_per_element (zeroCBN 1 1) xW yW zW zW true false 0 hx rfl⟩

end Gen
